import Mathlib

/-!
Verification development for the `gonew` repository's source-identifier
rewrite engine (`cmd/init.go`).

Strings from the Go code are embedded as `List Char` (Go strings are byte
slices; all byte offsets produced by `go/token` positions are modelled as
indices into that list).  Pure Go helpers (`path.Base`, `strings.TrimPrefix`,
`strings.HasPrefix`, `strings.Replace` with n = 1, `strconv.Quote`,
`strconv.Unquote`, `token.IsIdentifier`) are translated directly below.
`strconv.Unquote` / `strconv.Quote` are modelled on the escape-free fragment
of Go string literals (double-quoted literals without backslash escapes, and
raw back-quoted literals); module paths accepted by `module.CheckPath` never
contain characters that `strconv.Quote` would escape.
-/

namespace Gonew

/-- Go `strings.Cut(s, sep)` first component for a one-character separator:
everything before the first occurrence of `c` (the whole string when `c`
does not occur). -/
def cutAt (s : List Char) (c : Char) : List Char :=
  s.takeWhile (fun x => x ≠ c)

/-- The slice `data[a:b]` of a byte sequence, as in Go slicing
(half-open, clipped at the ends). -/
def slice (data : List Char) (a b : Nat) : List Char :=
  (data.drop a).take (b - a)

/-- Go `strings.HasPrefix`, via `List.isPrefixOf`. -/
def hasPref (pre s : List Char) : Bool :=
  pre.isPrefixOf s

/-- Go `strings.TrimPrefix(s, pre)`: drop `pre` when it is a prefix of `s`,
otherwise return `s` unchanged. -/
def trimPrefix (s pre : List Char) : List Char :=
  if hasPref pre s then s.drop pre.length else s

/-- Helper for `replaceFirst`: scan `s` left to right and replace the first
occurrence of the non-empty pattern `pat` by `rep`. -/
def replaceFirstAux (pat rep : List Char) : List Char → List Char
  | [] => []
  | c :: cs =>
    if hasPref pat (c :: cs) then rep ++ (c :: cs).drop pat.length
    else c :: replaceFirstAux pat rep cs

/-- Go `strings.Replace(s, pat, rep, 1)`: replace the first occurrence of
`pat` in `s` by `rep`; with an empty pattern Go inserts `rep` before the
first character. -/
def replaceFirst (s pat rep : List Char) : List Char :=
  if pat = [] then rep ++ s else replaceFirstAux pat rep s

/-- Strip all trailing slashes, as the loop in Go `path.Base` does. -/
def dropTrailingSlashes (p : List Char) : List Char :=
  (p.reverse.dropWhile (fun c => c = '/')).reverse

/-- Go `path.Base`: the last element of a slash-separated path; `"."` for the
empty path and `"/"` for a path made only of slashes. -/
def pathBase (p : List Char) : List Char :=
  if p = [] then ['.']
  else
    let q := dropTrailingSlashes p
    let r := (q.reverse.takeWhile (fun c => c ≠ '/')).reverse
    if r = [] then ['/'] else r

/-- Go `strconv.Quote` restricted to strings with no characters needing an
escape sequence (true of every valid module path): wrap in double quotes. -/
def quoteGo (s : List Char) : List Char :=
  '"' :: (s ++ ['"'])

/-- Go `strconv.Unquote` on the escape-free fragment of Go string literals:
a raw back-quoted literal yields its contents (which may not contain a
backquote), a double-quoted literal with no backslash, inner quote or
newline yields its contents; anything else is rejected.  Literals using
backslash escape sequences are outside the modelled fragment. -/
def unquoteGo (s : List Char) : Option (List Char) :=
  if 2 ≤ s.length then
    if s.head? = some '`' ∧ s.getLast? = some '`' then
      let inner := (s.drop 1).dropLast
      if '`' ∈ inner then none else some inner
    else if s.head? = some '"' ∧ s.getLast? = some '"' then
      let inner := (s.drop 1).dropLast
      if '"' ∈ inner ∨ '\\' ∈ inner ∨ '\n' ∈ inner then none else some inner
    else none
  else none

/-- The twenty-five Go keywords, which `token.IsIdentifier` rejects. -/
def goKeywords : List (List Char) :=
  ["break".toList, "case".toList, "chan".toList, "const".toList,
   "continue".toList, "default".toList, "defer".toList, "else".toList,
   "fallthrough".toList, "for".toList, "func".toList, "go".toList,
   "goto".toList, "if".toList, "import".toList, "interface".toList,
   "map".toList, "package".toList, "range".toList, "return".toList,
   "select".toList, "struct".toList, "switch".toList,
   "type".toList, "var".toList]

/-- Character validity inside a Go identifier (ASCII fragment of
`unicode.IsLetter`): a letter or underscore anywhere, a digit after the
first character. -/
def isIdentChar (first : Bool) (c : Char) : Bool :=
  c.isAlpha || c = '_' || (!first && c.isDigit)

/-- Go `token.IsIdentifier` (ASCII fragment): non-empty, not a keyword,
made of letters, digits and underscores, not starting with a digit. -/
def isGoIdent (s : List Char) : Bool :=
  match s with
  | [] => false
  | c :: cs =>
    !(goKeywords.contains (c :: cs)) &&
    isIdentChar true c && cs.all (isIdentChar false)

/-- Modelled from the spec: an `Edit` of the Patch Buffer
(`internal/edit`, not under `src/`): a half-open byte range
`[start, stop)` of the original bytes and its replacement text.
A zero-length range (`start = stop`) is a pure insertion. -/
structure Edit where
  start : Nat
  stop : Nat
  repl : List Char
  deriving DecidableEq, Repr

/-- Modelled from the spec: the Patch Buffer sort key — by start offset,
with inserts (zero-length ranges) before replacements at the same start. -/
def editLE (a b : Edit) : Bool :=
  decide (a.start < b.start ∨ (a.start = b.start ∧ a.stop ≤ b.stop))

/-- Stable insertion of an edit into a sorted edit list: the new edit goes
before the first strictly greater element, after equal keys already there. -/
def insertEdit (e : Edit) : List Edit → List Edit
  | [] => [e]
  | x :: xs => if editLE e x then e :: x :: xs else x :: insertEdit e xs

/-- Modelled from the spec: stable sort of the Patch Buffer's edit list by
`editLE` (insertion sort). -/
def sortEdits : List Edit → List Edit
  | [] => []
  | e :: es => insertEdit e (sortEdits es)

/-- Modelled from the spec: single-pass materialization of a sorted edit
list over the original bytes, copying each unedited gap verbatim and
substituting each edit's replacement; an overlapping or out-of-bounds edit
is an OverlapError, modelled as `none` (the real buffer fails fast). -/
def materialize (data : List Char) : Nat → List Edit → Option (List Char)
  | off, [] => some (data.drop off)
  | off, e :: es =>
    if e.start < off ∨ e.stop < e.start ∨ data.length < e.stop then none
    else
      (materialize data e.stop es).map
        (fun rest => (data.drop off).take (e.start - off) ++ e.repl ++ rest)

/-- Modelled from the spec: `Buffer.Bytes()` of the Patch Buffer — sort the
accumulated edits and materialize them over the original bytes. -/
def bufferBytes (data : List Char) (edits : List Edit) : Option (List Char) :=
  materialize data 0 (sortEdits edits)

/-- One import spec of a parsed Go file, as `fixGo` consumes it:
whether an explicit alias identifier is present (`spec.Name != nil`),
the byte offsets of the quoted path literal (`spec.Path.Pos/End`), and the
raw literal text (`spec.Path.Value`). -/
structure ImportSpec where
  hasName : Bool
  pathPos : Nat
  pathEnd : Nat
  pathLit : List Char
  deriving DecidableEq, Repr

/-- The header of a parsed Go file, as produced by
`parser.ParseFile(..., parser.ImportsOnly)` and consumed by `fixGo`:
the package-clause identifier with its byte span, and the import specs. -/
structure GoFile where
  nameStart : Nat
  nameEnd : Nat
  name : List Char
  imports : List ImportSpec
  deriving DecidableEq, Repr

/-- The edits the import loop of `fixGo` (cmd/init.go lines 221-245) emits
for one import spec: on `strconv.Unquote` failure, skip; on an exact match
of the old module path, insert the alias `srcName ++ " "` when the base
names differ and no explicit alias exists, then replace the literal with
the quoted new path; on a `srcMod ++ "/"` prefix match, replace the literal
with the quoted path whose first occurrence of `srcMod` is replaced. -/
def specEditsPath (srcMod dstMod : List Char) (s : ImportSpec)
    (path : List Char) : List Edit :=
  (if path = srcMod then
    (if pathBase srcMod ≠ pathBase dstMod ∧ s.hasName = false then
      [⟨s.pathPos, s.pathPos, pathBase srcMod ++ [' ']⟩]
    else []) ++
    [⟨s.pathPos, s.pathEnd, quoteGo dstMod⟩]
  else []) ++
  (if hasPref (srcMod ++ ['/']) path then
    [⟨s.pathPos, s.pathEnd, quoteGo (replaceFirst path srcMod dstMod)⟩]
  else [])

/-- Dispatch on `strconv.Unquote` for one import spec, as the loop head of
`fixGo` does: a literal that does not unquote is skipped (`continue`). -/
def specEdits (srcMod dstMod : List Char) (s : ImportSpec) : List Edit :=
  match unquoteGo s.pathLit with
  | none => []
  | some path => specEditsPath srcMod dstMod s path

/-- The package-clause edit of `fixGo` (cmd/init.go lines 209-219): at the
module root, a package named `base(srcMod)` or `base(srcMod) + "_test"` is
renamed by substituting the base name; an invalid resulting identifier is
fatal (`none`).  Any other file gets no package edit. -/
def pkgEdits (srcMod dstMod : List Char) (isRoot : Bool) (f : GoFile) :
    Option (List Edit) :=
  if isRoot then
    if f.name = pathBase srcMod ∨
        f.name = pathBase srcMod ++ "_test".toList then
      if isGoIdent (pathBase dstMod ++ trimPrefix f.name (pathBase srcMod)) then
        some [⟨f.nameStart, f.nameEnd,
          pathBase dstMod ++ trimPrefix f.name (pathBase srcMod)⟩]
      else none
    else some []
  else some []

/-- The full edit list `fixGo` emits into its buffer, in emission order:
the package-clause edit (if any) followed by the edits of each import spec
in order.  `none` when the package rename is fatal. -/
def fixGoEdits (srcMod dstMod : List Char) (isRoot : Bool) (f : GoFile) :
    Option (List Edit) :=
  match pkgEdits srcMod dstMod isRoot f with
  | none => none
  | some pe => some (pe ++ f.imports.flatMap (specEdits srcMod dstMod))

/-- Model of `fixGo` (cmd/init.go lines 197-247) on an already-parsed file: plan the
edits, then materialize them through the Patch Buffer.  `none` models the
fatal exits (invalid package rename, buffer overlap panic). -/
def fixGo (data : List Char) (f : GoFile) (srcMod dstMod : List Char)
    (isRoot : Bool) : Option (List Char) :=
  match fixGoEdits srcMod dstMod isRoot f with
  | none => none
  | some es => bufferBytes data es

/-- Chained ordering of the import specs as they occur in a source file:
each spec's path literal ends no later than the next one starts. -/
def importsChained : List ImportSpec → Bool
  | [] => true
  | [_] => true
  | a :: b :: rest => decide (a.pathEnd ≤ b.pathPos) && importsChained (b :: rest)

/-- Well-formedness of a parsed header with respect to the file bytes,
guaranteed by `go/parser`: the recorded spans lie inside the file, carry
exactly the recorded text, the package name is a valid identifier, the
package clause precedes every import, and the import literals appear in
order without overlapping. -/
def wf (data : List Char) (f : GoFile) : Prop :=
  f.nameStart ≤ f.nameEnd ∧ f.nameEnd ≤ data.length ∧
  slice data f.nameStart f.nameEnd = f.name ∧
  isGoIdent f.name = true ∧
  (∀ s ∈ f.imports, f.nameEnd ≤ s.pathPos ∧ s.pathPos ≤ s.pathEnd ∧
    s.pathEnd ≤ data.length ∧ slice data s.pathPos s.pathEnd = s.pathLit) ∧
  importsChained f.imports = true

instance (data : List Char) (f : GoFile) : Decidable (wf data f) := by
  unfold wf; infer_instance

/-- The externally observable I/O actions of `initProject`
(cmd/init.go lines 74-192), in the order the code performs them:
reading the destination directory, fetching the source module
(`go mod download -json`, including decoding its JSON output), creating the
destination directory, and the tree-copy/rewrite walk (which performs all
per-file reads and writes).  The template-expansion phase after the walk is
out of the modelled scope. -/
inductive Event where
  | readDir
  | fetch
  | mkdirAll
  | copyTree
  deriving DecidableEq, Repr

/-- How a run of `initProject` ends in the modelled scope: each `log.Fatalf`
exit is labelled by the check that triggered it. -/
inductive Outcome where
  | ok
  | invalidSrc
  | invalidDst
  | dstNonEmpty
  | fetchFailed
  | mkdirFailed
  deriving DecidableEq, Repr

/-- The environment `initProject` runs against: `valid` is
`module.CheckPath` succeeding, `readDirErr` is `os.ReadDir(dir)` returning
an error (directory does not exist), `readDirLen` the entry count on
success, `fetchOk` whether `go mod download -json` succeeds and its JSON
decodes, `mkdirOk` whether `os.MkdirAll` succeeds. -/
structure Env where
  valid : List Char → Bool
  readDirErr : Bool
  readDirLen : Nat
  fetchOk : Bool
  mkdirOk : Bool

/-- The I/O trace and outcome of `initProject` after both module-path
checks have passed (cmd/init.go lines 108-170): read the destination
directory, fail if it exists non-empty, fetch the module, create the
directory only when it did not exist, then walk/copy the tree. -/
def initAfterChecks (env : Env) : List Event × Outcome :=
  if env.readDirErr = false ∧ 0 < env.readDirLen then
    ([Event.readDir], Outcome.dstNonEmpty)
  else if env.fetchOk = false then
    ([Event.readDir, Event.fetch], Outcome.fetchFailed)
  else if env.readDirErr then
    if env.mkdirOk then
      ([Event.readDir, Event.fetch, Event.mkdirAll, Event.copyTree], Outcome.ok)
    else ([Event.readDir, Event.fetch, Event.mkdirAll], Outcome.mkdirFailed)
  else ([Event.readDir, Event.fetch, Event.copyTree], Outcome.ok)

/-- The I/O trace and outcome of `initProject` (cmd/init.go lines 74-170):
the source argument is cut at `@` and validated with `module.CheckPath`;
when a second argument is given it is validated as the destination module
path; only then does any I/O happen.  The third argument only selects the
destination directory name and does not influence the event kinds. -/
def initSteps (env : Env) (arg1 : List Char) (arg2 _arg3 : Option (List Char)) :
    List Event × Outcome :=
  let src := cutAt arg1 '@'
  if env.valid src = false then ([], Outcome.invalidSrc)
  else
    match arg2 with
    | some a =>
      if env.valid a = false then ([], Outcome.invalidDst)
      else initAfterChecks env
    | none => initAfterChecks env

/-- Model of `fixGoMod` (cmd/init.go lines 251-265), with the `golang.org/x/mod`
modfile operations it calls (`modfile.ParseLax`, `(*File).AddModuleStmt`,
`(*File).Format`) abstracted as parameters, each returning `none` on error:
a parse or edit error is fatal (`none`); when formatting the edited file
fails, the function returns `data` — the original input bytes. -/
def fixGoMod {MF : Type} (parseLax : List Char → Option MF)
    (addModuleStmt : MF → List Char → Option MF)
    (format : MF → Option (List Char))
    (data : List Char) (dstMod : List Char) : Option (List Char) :=
  match parseLax data with
  | none => none
  | some file =>
    match addModuleStmt file dstMod with
    | none => none
    | some edited =>
      match format edited with
      | none => some data
      | some out => some out

/-- Concrete fixture: the bytes of a minimal root file with a canonical
(double-quoted) self-import of module `a/b`. -/
def exData : List Char := "package b\nimport \"a/b\"\n".toList

/-- Parsed header of `exData`: package name `b` at bytes 8-9, and one
unaliased import whose literal sits at bytes 17-22. -/
def exFile : GoFile := ⟨8, 9, "b".toList, [⟨false, 17, 22, "\"a/b\"".toList⟩]⟩

/-- Concrete fixture: the same file but with the self-import written as a
raw back-quoted literal. -/
def exDataRaw : List Char := "package b\nimport `a/b`\n".toList

/-- Parsed header of `exDataRaw`. -/
def exFileRaw : GoFile := ⟨8, 9, "b".toList, [⟨false, 17, 22, "`a/b`".toList⟩]⟩

/-- Concrete fixture: a root file that never mentions module `a/b`. -/
def exDataOther : List Char := "package m\nimport \"x/y\"\n".toList

/-- Parsed header of `exDataOther`. -/
def exFileOther : GoFile := ⟨8, 9, "m".toList, [⟨false, 17, 22, "\"x/y\"".toList⟩]⟩

theorem hasPref_append (l r : List Char) : hasPref l (l ++ r) = true := by
  induction l with
  | nil => simp [hasPref]
  | cons c cs ih =>
    simp only [hasPref, List.cons_append, List.isPrefixOf_cons₂_self]
    exact ih

theorem hasPref_exists : ∀ (l s : List Char), hasPref l s = true → ∃ t, s = l ++ t
  | [], s, _ => ⟨s, rfl⟩
  | c :: cs, [], h => by simp [hasPref] at h
  | c :: cs, b :: bs, h => by
    rw [hasPref, List.isPrefixOf_cons₂] at h
    obtain ⟨hcb, hrest⟩ := Bool.and_eq_true_iff.mp h
    obtain ⟨t, ht⟩ := hasPref_exists cs bs hrest
    have hcb' : c = b := by simpa using hcb
    exact ⟨t, by simp [hcb', ht]⟩

theorem specEdits_eq_of_unquote_some {srcMod dstMod : List Char}
    {s : ImportSpec} {p : List Char} (h : unquoteGo s.pathLit = some p) :
    specEdits srcMod dstMod s = specEditsPath srcMod dstMod s p := by
  unfold specEdits
  rw [h]

theorem hasPref_append_cons_self (l : List Char) (c : Char) (r : List Char) :
    hasPref (l ++ c :: r) l = false := by
  by_contra h
  rw [Bool.not_eq_false] at h
  obtain ⟨t, ht⟩ := hasPref_exists _ _ h
  have hlen := congrArg List.length ht
  simp only [List.length_append, List.length_cons] at hlen
  omega

theorem replaceFirst_append (pat t rep : List Char) :
    replaceFirst (pat ++ t) pat rep = rep ++ t := by
  cases pat with
  | nil => simp [replaceFirst]
  | cons c cs =>
    unfold replaceFirst
    rw [if_neg (by simp)]
    rw [List.cons_append]
    unfold replaceFirstAux
    rw [← List.cons_append, if_pos (hasPref_append _ _), List.drop_left]

theorem trimPrefix_append (p t : List Char) : trimPrefix (p ++ t) p = t := by
  unfold trimPrefix
  rw [if_pos (hasPref_append p t)]
  exact List.drop_left p t

theorem trimPrefix_self (p : List Char) : trimPrefix p p = [] := by
  simpa using trimPrefix_append p []

/-- C1: an import spec whose unquoted path equals the old identity gets the
alias `base(O)` plus a space inserted immediately before the path literal
exactly when `base(O) ≠ base(N)` and no explicit alias is present, and in
every case the path literal is replaced with the quoted new identity. -/
theorem fixGo_self_import_rewrite (srcMod dstMod : List Char) (s : ImportSpec)
    (h : unquoteGo s.pathLit = some srcMod) :
    specEdits srcMod dstMod s =
      (if pathBase srcMod ≠ pathBase dstMod ∧ s.hasName = false then
        [⟨s.pathPos, s.pathPos, pathBase srcMod ++ [' ']⟩]
      else []) ++ [⟨s.pathPos, s.pathEnd, quoteGo dstMod⟩] := by
  rw [specEdits_eq_of_unquote_some h]
  unfold specEditsPath
  rw [if_pos rfl]
  simp only [hasPref_append_cons_self srcMod '/' []]
  simp

/-- C1 witness: with `O = "a/b"`, `N = "a/c"` and the unaliased literal
`"a/b"`, the emitted edits are the alias insert `b ` followed by the
replacement by `"a/c"`. -/
theorem fixGo_self_import_rewrite_witness :
    unquoteGo ("\"a/b\"".toList) = some ("a/b".toList) ∧
    specEdits ("a/b".toList) ("a/c".toList) ⟨false, 17, 22, "\"a/b\"".toList⟩ =
      [⟨17, 17, "b ".toList⟩, ⟨17, 22, "\"a/c\"".toList⟩] := by
  refine ⟨by decide, ?_⟩
  rw [fixGo_self_import_rewrite ("a/b".toList) ("a/c".toList)
    ⟨false, 17, 22, "\"a/b\"".toList⟩ (by decide)]
  decide

/-- C2: an import spec whose unquoted path is `O ++ "/" ++ rest` gets
exactly one edit, replacing the path literal with the quoted
`N ++ "/" ++ rest`; the remainder of the path is kept byte-identical even
when `O` occurs again inside it. -/
theorem fixGo_subpackage_rewrite (srcMod dstMod rest : List Char)
    (s : ImportSpec) (_hr : rest ≠ [])
    (h : unquoteGo s.pathLit = some (srcMod ++ '/' :: rest)) :
    specEdits srcMod dstMod s =
      [⟨s.pathPos, s.pathEnd, quoteGo (dstMod ++ '/' :: rest)⟩] := by
  rw [specEdits_eq_of_unquote_some h]
  unfold specEditsPath
  have hne : srcMod ++ '/' :: rest ≠ srcMod := by
    intro hEq
    have hlen := congrArg List.length hEq
    simp [List.length_append] at hlen
  have hsplit : srcMod ++ '/' :: rest = (srcMod ++ ['/']) ++ rest := by simp
  have hpre : hasPref (srcMod ++ ['/']) (srcMod ++ '/' :: rest) = true := by
    rw [hsplit]; exact hasPref_append _ _
  rw [if_neg hne, if_pos hpre]
  have hrepl : replaceFirst (srcMod ++ '/' :: rest) srcMod dstMod =
      dstMod ++ '/' :: rest := replaceFirst_append srcMod ('/' :: rest) dstMod
  rw [hrepl]
  simp

/-- C2 witness: with `O = "a/b"`, `N = "a/c"` and the literal
`"a/b/x/a/b"` (the old identity occurs again inside the path), the single
edit replaces the literal with `"a/c/x/a/b"`. -/
theorem fixGo_subpackage_rewrite_witness :
    unquoteGo ("\"a/b/x/a/b\"".toList) =
      some ("a/b".toList ++ '/' :: "x/a/b".toList) ∧
    "x/a/b".toList ≠ [] ∧
    specEdits ("a/b".toList) ("a/c".toList) ⟨false, 17, 28, "\"a/b/x/a/b\"".toList⟩ =
      [⟨17, 28, "\"a/c/x/a/b\"".toList⟩] := by
  refine ⟨by decide, by decide, ?_⟩
  rw [fixGo_subpackage_rewrite ("a/b".toList) ("a/c".toList) ("x/a/b".toList)
    ⟨false, 17, 28, "\"a/b/x/a/b\"".toList⟩ (by decide) (by decide)]
  decide

/-- C5: at the module root a package named `base(O)` is renamed to
`base(N)` and a package named `base(O) ++ "_test"` to
`base(N) ++ "_test"` (the suffix is preserved), provided the new name is a
valid identifier; a non-root file, or a root file with any other package
name, gets no package-clause edit. -/
theorem fixGo_package_rename (srcMod dstMod : List Char) (isRoot : Bool)
    (f : GoFile) :
    (f.name = pathBase srcMod → isGoIdent (pathBase dstMod) = true →
      pkgEdits srcMod dstMod true f =
        some [⟨f.nameStart, f.nameEnd, pathBase dstMod⟩]) ∧
    (f.name = pathBase srcMod ++ "_test".toList →
      isGoIdent (pathBase dstMod ++ "_test".toList) = true →
      pkgEdits srcMod dstMod true f =
        some [⟨f.nameStart, f.nameEnd, pathBase dstMod ++ "_test".toList⟩]) ∧
    (pkgEdits srcMod dstMod false f = some []) ∧
    (f.name ≠ pathBase srcMod → f.name ≠ pathBase srcMod ++ "_test".toList →
      pkgEdits srcMod dstMod isRoot f = some []) := by
  refine ⟨?_, ?_, ?_, ?_⟩
  · intro hn hid
    unfold pkgEdits
    rw [if_pos rfl, if_pos (Or.inl hn), hn, trimPrefix_self]
    rw [List.append_nil, if_pos hid]
  · intro hn hid
    unfold pkgEdits
    rw [if_pos rfl, if_pos (Or.inr hn), hn, trimPrefix_append]
    rw [if_pos hid]
  · unfold pkgEdits
    simp
  · intro h1 h2
    unfold pkgEdits
    cases isRoot with
    | false => simp
    | true =>
      rw [if_pos rfl, if_neg ?_]
      intro hor
      rcases hor with h | h
      · exact h1 h
      · exact h2 h

/-- C5 witness: with `O = "a/b"`, `N = "a/c"`, a root package `b` becomes
`c` and a root package `b_test` becomes `c_test`. -/
theorem fixGo_package_rename_witness :
    pkgEdits ("a/b".toList) ("a/c".toList) true ⟨8, 9, "b".toList, []⟩ =
      some [⟨8, 9, "c".toList⟩] ∧
    pkgEdits ("a/b".toList) ("a/c".toList) true ⟨8, 14, "b_test".toList, []⟩ =
      some [⟨8, 14, "c_test".toList⟩] := by
  constructor
  · exact ((fixGo_package_rename ("a/b".toList) ("a/c".toList) true
      ⟨8, 9, "b".toList, []⟩).1 (by decide) (by decide)).trans (by decide)
  · exact ((fixGo_package_rename ("a/b".toList) ("a/c".toList) true
      ⟨8, 14, "b_test".toList, []⟩).2.1 (by decide) (by decide)).trans (by decide)

/-- C9: an import spec whose path literal cannot be unquoted contributes no
edit and no error: removing it from the import list leaves the result of
`fixGo` unchanged, so every other import spec is processed as before. -/
theorem fixGo_skips_malformed_import (data srcMod dstMod : List Char)
    (isRoot : Bool) (f : GoFile) (l1 l2 : List ImportSpec) (s : ImportSpec)
    (h : unquoteGo s.pathLit = none) :
    specEdits srcMod dstMod s = [] ∧
    fixGo data { f with imports := l1 ++ s :: l2 } srcMod dstMod isRoot =
      fixGo data { f with imports := l1 ++ l2 } srcMod dstMod isRoot := by
  have hz : specEdits srcMod dstMod s = [] := by
    unfold specEdits; rw [h]
  refine ⟨hz, ?_⟩
  unfold fixGo fixGoEdits
  have hp : pkgEdits srcMod dstMod isRoot { f with imports := l1 ++ s :: l2 } =
      pkgEdits srcMod dstMod isRoot { f with imports := l1 ++ l2 } := rfl
  rw [hp]
  cases pkgEdits srcMod dstMod isRoot { f with imports := l1 ++ l2 } with
  | none => rfl
  | some pe =>
    simp only [List.flatMap_append, List.flatMap_cons, hz, List.nil_append]

/-- C9 witness: a malformed literal `"a` (no closing quote) in front of a
well-formed self-import contributes nothing: `fixGo` returns the same
bytes as for the file without it, and the good import is still rewritten. -/
theorem fixGo_skips_malformed_import_witness :
    unquoteGo ("\"a".toList) = none ∧
    specEdits ("a/b".toList) ("a/c".toList) ⟨false, 0, 2, "\"a".toList⟩ = [] ∧
    fixGo ("package b\nimport \"a/b\"\n".toList)
      ⟨8, 9, "b".toList, [⟨false, 0, 2, "\"a".toList⟩, ⟨false, 17, 22, "\"a/b\"".toList⟩]⟩
      ("a/b".toList) ("a/c".toList) false =
    fixGo ("package b\nimport \"a/b\"\n".toList)
      ⟨8, 9, "b".toList, [⟨false, 17, 22, "\"a/b\"".toList⟩]⟩
      ("a/b".toList) ("a/c".toList) false := by
  have hm := fixGo_skips_malformed_import ("package b\nimport \"a/b\"\n".toList)
    ("a/b".toList) ("a/c".toList) false
    ⟨8, 9, "b".toList, []⟩ [] [⟨false, 17, 22, "\"a/b\"".toList⟩]
    ⟨false, 0, 2, "\"a".toList⟩ (by decide)
  exact ⟨by decide, hm.1, hm.2⟩

/-- C4 counterexample: instantiating the modfile operations with a parse
and edit that succeed and a formatter that fails, `fixGoMod` returns the
original input bytes, which do not contain the new module identity
anywhere — the claim that the returned content still contains the new
module declaration is false. -/
theorem fixGoMod_format_failure_cex :
    fixGoMod (fun d : List Char => some d)
      (fun (_ : List Char) (n : List Char) => some n)
      (fun _ : List Char => (none : Option (List Char)))
      ("module a/b\n".toList) ("a/c".toList) = some ("module a/b\n".toList) ∧
    ¬ ("a/c".toList <:+: "module a/b\n".toList) := by
  exact ⟨rfl, by decide⟩

/-- C4 amended: when the manifest parses, the module statement is edited
successfully, and reserialization then fails, `fixGoMod` returns the
original input bytes unchanged — the edit is discarded, not preserved. -/
theorem fixGoMod_format_failure {MF : Type} (parseLax : List Char → Option MF)
    (addModuleStmt : MF → List Char → Option MF)
    (format : MF → Option (List Char)) (data dstMod : List Char)
    (f g : MF) (hp : parseLax data = some f)
    (ha : addModuleStmt f dstMod = some g) (hf : format g = none) :
    fixGoMod parseLax addModuleStmt format data dstMod = some data := by
  simp only [fixGoMod, hp, ha, hf]

/-- C4 witness for the amended claim: the concrete instantiation of the
counterexample satisfies its hypotheses, and the output is the input. -/
theorem fixGoMod_format_failure_witness :
    fixGoMod (fun d : List Char => some d)
      (fun (_ : List Char) (n : List Char) => some n)
      (fun _ : List Char => (none : Option (List Char)))
      ("module a/b\n".toList) ("a/c".toList) = some ("module a/b\n".toList) :=
  fixGoMod_format_failure (fun d : List Char => some d)
    (fun (_ : List Char) (n : List Char) => some n)
    (fun _ : List Char => (none : Option (List Char)))
    ("module a/b\n".toList) ("a/c".toList)
    ("module a/b\n".toList) ("a/c".toList) rfl rfl rfl

theorem initSteps_valid (env : Env) (arg1 : List Char)
    (arg2 arg3 : Option (List Char))
    (h1 : env.valid (cutAt arg1 '@') = true)
    (h2 : ∀ a, arg2 = some a → env.valid a = true) :
    initSteps env arg1 arg2 arg3 = initAfterChecks env := by
  unfold initSteps
  cases arg2 with
  | none => simp [h1]
  | some a => simp [h1, h2 a rfl]

/-- C8: when the source module path (the first argument cut at `@`) or an
explicitly given destination module path fails `module.CheckPath`,
`initProject` stops with the corresponding validation failure having
performed no I/O at all: no directory read, no module fetch, no file read
or write. -/
theorem initProject_validates_before_io (env : Env) (arg1 : List Char)
    (arg2 arg3 : Option (List Char))
    (h : env.valid (cutAt arg1 '@') = false ∨
      (∃ a, arg2 = some a ∧ env.valid a = false)) :
    (initSteps env arg1 arg2 arg3).1 = [] ∧
    ((initSteps env arg1 arg2 arg3).2 = Outcome.invalidSrc ∨
     (initSteps env arg1 arg2 arg3).2 = Outcome.invalidDst) := by
  rcases h with h | ⟨a, ha, hv⟩
  · simp [initSteps, h]
  · subst ha
    cases hs : env.valid (cutAt arg1 '@') with
    | false => simp [initSteps, hs]
    | true => simp [initSteps, hs, hv]

/-- C8 witness: with a validator rejecting every path, running on source
argument `a@latest` performs no I/O and fails validation. -/
theorem initProject_validates_before_io_witness :
    (Env.mk (fun _ => false) false 0 false false).valid
      (cutAt ("a@latest".toList) '@') = false ∧
    ((initSteps ⟨fun _ => false, false, 0, false, false⟩
        ("a@latest".toList) none none).1 = [] ∧
     ((initSteps ⟨fun _ => false, false, 0, false, false⟩
        ("a@latest".toList) none none).2 = Outcome.invalidSrc ∨
      (initSteps ⟨fun _ => false, false, 0, false, false⟩
        ("a@latest".toList) none none).2 = Outcome.invalidDst)) :=
  ⟨rfl, initProject_validates_before_io _ _ _ _ (Or.inl rfl)⟩

/-- C10: with both identities valid, a destination directory that exists
and is non-empty aborts after only the directory read — before the module
fetch and before anything is created or written; a nonexistent destination
is accepted and created right after the fetch succeeds; an existing empty
destination is accepted without creating anything. -/
theorem initProject_dst_dir_check (env : Env) (arg1 : List Char)
    (arg2 arg3 : Option (List Char))
    (h1 : env.valid (cutAt arg1 '@') = true)
    (h2 : ∀ a, arg2 = some a → env.valid a = true) :
    (env.readDirErr = false → 0 < env.readDirLen →
      initSteps env arg1 arg2 arg3 = ([Event.readDir], Outcome.dstNonEmpty)) ∧
    (env.readDirErr = true → env.fetchOk = true → env.mkdirOk = true →
      initSteps env arg1 arg2 arg3 =
        ([Event.readDir, Event.fetch, Event.mkdirAll, Event.copyTree],
          Outcome.ok)) ∧
    (env.readDirErr = false → env.readDirLen = 0 → env.fetchOk = true →
      initSteps env arg1 arg2 arg3 =
        ([Event.readDir, Event.fetch, Event.copyTree], Outcome.ok)) := by
  rw [initSteps_valid env arg1 arg2 arg3 h1 h2]
  refine ⟨?_, ?_, ?_⟩
  · intro hre hlen
    simp [initAfterChecks, hre, hlen]
  · intro hre hfetch hmk
    simp [initAfterChecks, hre, hfetch, hmk]
  · intro hre hlen hfetch
    simp [initAfterChecks, hre, hlen, hfetch]

/-- C10 witness: with an always-accepting validator, the three destination
situations (non-empty, nonexistent, existing empty) produce exactly the
claimed traces. -/
theorem initProject_dst_dir_check_witness :
    initSteps ⟨fun _ => true, false, 1, true, true⟩ ("a/b".toList) none none =
      ([Event.readDir], Outcome.dstNonEmpty) ∧
    initSteps ⟨fun _ => true, true, 0, true, true⟩ ("a/b".toList) none none =
      ([Event.readDir, Event.fetch, Event.mkdirAll, Event.copyTree],
        Outcome.ok) ∧
    initSteps ⟨fun _ => true, false, 0, true, true⟩ ("a/b".toList) none none =
      ([Event.readDir, Event.fetch, Event.copyTree], Outcome.ok) :=
  ⟨(initProject_dst_dir_check _ _ _ _ rfl (fun _ h => Option.noConfusion h)).1
      rfl (by decide),
   (initProject_dst_dir_check _ _ _ _ rfl (fun _ h => Option.noConfusion h)).2.1
      rfl rfl rfl,
   (initProject_dst_dir_check _ _ _ _ rfl (fun _ h => Option.noConfusion h)).2.2
      rfl rfl rfl⟩

theorem specEdits_eq_of_unquote_none {srcMod dstMod : List Char}
    {s : ImportSpec} (h : unquoteGo s.pathLit = none) :
    specEdits srcMod dstMod s = [] := by
  unfold specEdits
  rw [h]

theorem specEdits_mem_bounds (srcMod dstMod : List Char) (s : ImportSpec)
    (hs : s.pathPos ≤ s.pathEnd) :
    ∀ e ∈ specEdits srcMod dstMod s,
      s.pathPos ≤ e.start ∧ e.start ≤ e.stop ∧ e.stop ≤ s.pathEnd := by
  intro e he
  cases hu : unquoteGo s.pathLit with
  | none =>
    rw [specEdits_eq_of_unquote_none hu] at he
    cases he
  | some p =>
    rw [specEdits_eq_of_unquote_some hu] at he
    unfold specEditsPath at he
    rcases List.mem_append.mp he with h1 | h2
    · split at h1
      · rcases List.mem_append.mp h1 with h3 | h4
        · split at h3
          · simp only [List.mem_singleton] at h3
            subst h3
            exact ⟨Nat.le_refl _, Nat.le_refl _, hs⟩
          · cases h3
        · simp only [List.mem_singleton] at h4
          subst h4
          exact ⟨Nat.le_refl _, hs, Nat.le_refl _⟩
      · cases h1
    · split at h2
      · simp only [List.mem_singleton] at h2
        subst h2
        exact ⟨Nat.le_refl _, hs, Nat.le_refl _⟩
      · cases h2

theorem specEdits_pairwise (srcMod dstMod : List Char) (s : ImportSpec) :
    (specEdits srcMod dstMod s).Pairwise (fun a b => a.stop ≤ b.start) := by
  cases hu : unquoteGo s.pathLit with
  | none =>
    rw [specEdits_eq_of_unquote_none hu]
    exact List.Pairwise.nil
  | some p =>
    rw [specEdits_eq_of_unquote_some hu]
    unfold specEditsPath
    by_cases hp : p = srcMod
    · rw [hp, if_pos rfl]
      simp only [hasPref_append_cons_self srcMod '/' []]
      by_cases hc : pathBase srcMod ≠ pathBase dstMod ∧ s.hasName = false
      · rw [if_pos hc]
        simp [List.pairwise_cons]
      · rw [if_neg hc]
        simp [List.pairwise_cons]
    · rw [if_neg hp]
      split <;> simp [List.pairwise_cons]

theorem importsChained_tail (a : ImportSpec) (l : List ImportSpec)
    (h : importsChained (a :: l) = true) : importsChained l = true := by
  cases l with
  | nil => rfl
  | cons b rest =>
    unfold importsChained at h
    exact (Bool.and_eq_true_iff.mp h).2

theorem importsChained_head_le (a : ImportSpec) (l : List ImportSpec)
    (h : importsChained (a :: l) = true)
    (hb : ∀ s ∈ l, s.pathPos ≤ s.pathEnd) :
    ∀ b ∈ l, a.pathEnd ≤ b.pathPos := by
  induction l generalizing a with
  | nil =>
    intro b hbmem
    cases hbmem
  | cons c rest ih =>
    intro b hbmem
    unfold importsChained at h
    obtain ⟨hac, hrest⟩ := Bool.and_eq_true_iff.mp h
    have hac' : a.pathEnd ≤ c.pathPos := of_decide_eq_true hac
    rcases List.mem_cons.mp hbmem with rfl | hmem
    · exact hac'
    · have hcc : c.pathPos ≤ c.pathEnd := hb c (List.mem_cons_self _ _)
      have := ih c hrest (fun s hs => hb s (List.mem_cons_of_mem _ hs)) b hmem
      omega

theorem flatMap_specEdits_pairwise (srcMod dstMod : List Char) :
    ∀ (l : List ImportSpec), importsChained l = true →
    (∀ s ∈ l, s.pathPos ≤ s.pathEnd) →
    (l.flatMap (specEdits srcMod dstMod)).Pairwise
      (fun a b => a.stop ≤ b.start)
  | [], _, _ => List.Pairwise.nil
  | a :: rest, hch, hb => by
    rw [List.flatMap_cons, List.pairwise_append]
    refine ⟨specEdits_pairwise srcMod dstMod a,
      flatMap_specEdits_pairwise srcMod dstMod rest
        (importsChained_tail a rest hch)
        (fun s hs => hb s (List.mem_cons_of_mem _ hs)), ?_⟩
    intro e1 h1 e2 h2
    have hb1 := specEdits_mem_bounds srcMod dstMod a
      (hb a (List.mem_cons_self _ _)) e1 h1
    obtain ⟨s2, hs2mem, hs2⟩ := List.mem_flatMap.mp h2
    have hb2 := specEdits_mem_bounds srcMod dstMod s2
      (hb s2 (List.mem_cons_of_mem _ hs2mem)) e2 hs2
    have hle := importsChained_head_le a rest hch
      (fun s hs => hb s (List.mem_cons_of_mem _ hs)) s2 hs2mem
    omega

theorem pkgEdits_shape (srcMod dstMod : List Char) (isRoot : Bool)
    (f : GoFile) (pe : List Edit)
    (h : pkgEdits srcMod dstMod isRoot f = some pe) :
    pe = [] ∨ ∃ d, pe = [⟨f.nameStart, f.nameEnd, d⟩] := by
  unfold pkgEdits at h
  split at h
  · split at h
    · split at h
      · cases h
        exact Or.inr ⟨_, rfl⟩
      · exact Option.noConfusion h
    · cases h
      exact Or.inl rfl
  · cases h
    exact Or.inl rfl

theorem fixGoEdits_pairwise_bounds (data srcMod dstMod : List Char)
    (isRoot : Bool) (f : GoFile) (es : List Edit) (hwf : wf data f)
    (h : fixGoEdits srcMod dstMod isRoot f = some es) :
    es.Pairwise (fun a b => a.stop ≤ b.start) ∧
    ∀ e ∈ es, e.start ≤ e.stop := by
  obtain ⟨hn1, hn2, _, _, h5, h6⟩ := hwf
  unfold fixGoEdits at h
  cases hpk : pkgEdits srcMod dstMod isRoot f with
  | none =>
    rw [hpk] at h
    exact Option.noConfusion h
  | some pe =>
    rw [hpk] at h
    cases h
    have hbnds : ∀ s ∈ f.imports, s.pathPos ≤ s.pathEnd :=
      fun s hs => (h5 s hs).2.1
    have hshape := pkgEdits_shape srcMod dstMod isRoot f pe hpk
    have hpemem : ∀ e ∈ pe, e.start = f.nameStart ∧ e.stop = f.nameEnd := by
      rcases hshape with rfl | ⟨d, rfl⟩
      · intro e he; cases he
      · intro e he
        simp only [List.mem_singleton] at he
        subst he
        exact ⟨rfl, rfl⟩
    constructor
    · rw [List.pairwise_append]
      refine ⟨?_, flatMap_specEdits_pairwise srcMod dstMod f.imports h6 hbnds, ?_⟩
      · rcases hshape with rfl | ⟨d, rfl⟩
        · exact List.Pairwise.nil
        · simp
      · intro e1 h1 e2 h2
        obtain ⟨_, hstop⟩ := hpemem e1 h1
        obtain ⟨s2, hs2mem, hs2⟩ := List.mem_flatMap.mp h2
        have hb2 := specEdits_mem_bounds srcMod dstMod s2 (hbnds s2 hs2mem) e2 hs2
        have := (h5 s2 hs2mem).1
        omega
    · intro e he
      rcases List.mem_append.mp he with h1 | h2
      · obtain ⟨hs, ht⟩ := hpemem e h1
        omega
      · obtain ⟨s2, hs2mem, hs2⟩ := List.mem_flatMap.mp h2
        have hb2 := specEdits_mem_bounds srcMod dstMod s2 (hbnds s2 hs2mem) e hs2
        omega

theorem sortEdits_eq_self (es : List Edit)
    (h : es.Pairwise (fun a b => editLE a b = true)) : sortEdits es = es := by
  induction es with
  | nil => rfl
  | cons e rest ih =>
    obtain ⟨hhead, htail⟩ := List.pairwise_cons.mp h
    unfold sortEdits
    rw [ih htail]
    cases rest with
    | nil => rfl
    | cons x xs =>
      unfold insertEdit
      rw [if_pos (hhead x (List.mem_cons_self _ _))]

theorem sortEdits_of_nonoverlapping (es : List Edit)
    (hp : es.Pairwise (fun a b => a.stop ≤ b.start))
    (hb : ∀ e ∈ es, e.start ≤ e.stop) : sortEdits es = es := by
  refine sortEdits_eq_self es (hp.imp_of_mem ?_)
  intro a b ha hbm hab
  have h1 := hb a ha
  have h2 := hb b hbm
  simp only [editLE, decide_eq_true_eq]
  omega

theorem drop_take_drop (l : List Char) (a b : Nat) (hab : a ≤ b) :
    (l.drop a).take (b - a) ++ l.drop b = l.drop a := by
  have h1 : (l.drop a).drop (b - a) = l.drop b := by
    rw [List.drop_drop]
    congr 1
    omega
  calc (l.drop a).take (b - a) ++ l.drop b
      = (l.drop a).take (b - a) ++ (l.drop a).drop (b - a) := by rw [h1]
    _ = l.drop a := List.take_append_drop _ _

theorem materialize_id (data : List Char) :
    ∀ (es : List Edit) (off : Nat),
    es.Pairwise (fun a b => a.stop ≤ b.start) →
    (∀ e ∈ es, off ≤ e.start ∧ e.start ≤ e.stop ∧ e.stop ≤ data.length ∧
      e.repl = slice data e.start e.stop) →
    materialize data off es = some (data.drop off)
  | [], off, _, _ => rfl
  | e :: es, off, hp, hb => by
    obtain ⟨hoff, hse, hlen, hrepl⟩ := hb e (List.mem_cons_self _ _)
    obtain ⟨hhead, htail⟩ := List.pairwise_cons.mp hp
    unfold materialize
    rw [if_neg (by omega)]
    have ih := materialize_id data es e.stop htail (by
      intro x hx
      obtain ⟨_, hx2, hx3, hx4⟩ := hb x (List.mem_cons_of_mem _ hx)
      exact ⟨hhead x hx, hx2, hx3, hx4⟩)
    rw [ih]
    simp only [Option.map_some']
    rw [hrepl]
    unfold slice
    rw [List.append_assoc, drop_take_drop data e.start e.stop hse,
      drop_take_drop data off e.start hoff]

theorem fixGo_eq_of_edits {data srcMod dstMod : List Char} {isRoot : Bool}
    {f : GoFile} {es : List Edit}
    (h : fixGoEdits srcMod dstMod isRoot f = some es) :
    fixGo data f srcMod dstMod isRoot = bufferBytes data es := by
  unfold fixGo
  rw [h]

/-- C7: for a well-formed parsed file, the edit list `fixGo` emits into the
patch buffer is, in emission order, pairwise non-overlapping: every edit
ends no later than the next one starts (so any two edits with
`s1 < s2` satisfy `end1 ≤ s2`, and at a shared start offset the
zero-length alias insert necessarily precedes the path-literal replace),
and every edit has `start ≤ stop`. -/
theorem fixGo_edit_plan_nonoverlapping (data srcMod dstMod : List Char)
    (isRoot : Bool) (f : GoFile) (es : List Edit) (hwf : wf data f)
    (h : fixGoEdits srcMod dstMod isRoot f = some es) :
    es.Pairwise (fun a b => a.stop ≤ b.start) ∧
    ∀ e ∈ es, e.start ≤ e.stop :=
  fixGoEdits_pairwise_bounds data srcMod dstMod isRoot f es hwf h

/-- C7 witness: on the concrete root file with a self-import, the emitted
plan (package rename, alias insert, literal replace) is non-overlapping
and in order. -/
theorem fixGo_edit_plan_nonoverlapping_witness :
    wf exData exFile ∧
    fixGoEdits ("a/b".toList) ("a/c".toList) true exFile =
      some [⟨8, 9, "c".toList⟩, ⟨17, 17, "b ".toList⟩,
        ⟨17, 22, "\"a/c\"".toList⟩] ∧
    (([⟨8, 9, "c".toList⟩, ⟨17, 17, "b ".toList⟩,
        ⟨17, 22, "\"a/c\"".toList⟩] : List Edit).Pairwise
      (fun a b => a.stop ≤ b.start) ∧
    ∀ e ∈ ([⟨8, 9, "c".toList⟩, ⟨17, 17, "b ".toList⟩,
        ⟨17, 22, "\"a/c\"".toList⟩] : List Edit), e.start ≤ e.stop) :=
  ⟨by decide, by decide,
    fixGo_edit_plan_nonoverlapping exData ("a/b".toList) ("a/c".toList) true
      exFile _ (by decide) (by decide)⟩

theorem pkgEdits_same_identity (X : List Char) (isRoot : Bool) (f : GoFile)
    (hid : isGoIdent f.name = true) :
    pkgEdits X X isRoot f = some [] ∨
    pkgEdits X X isRoot f = some [⟨f.nameStart, f.nameEnd, f.name⟩] := by
  unfold pkgEdits
  cases isRoot with
  | false => exact Or.inl rfl
  | true =>
    by_cases hn : f.name = pathBase X ∨ f.name = pathBase X ++ "_test".toList
    · refine Or.inr ?_
      have hdname : pathBase X ++ trimPrefix f.name (pathBase X) = f.name := by
        rcases hn with hn | hn
        · rw [hn, trimPrefix_self, List.append_nil]
        · rw [hn, trimPrefix_append]
      rw [if_pos rfl, if_pos hn, hdname, if_pos hid]
    · exact Or.inl (by rw [if_pos rfl, if_neg hn])

theorem specEdits_same_content (X : List Char) (s : ImportSpec)
    (hcan : ∀ p, unquoteGo s.pathLit = some p → s.pathLit = quoteGo p) :
    ∀ e ∈ specEdits X X s,
      e.start = s.pathPos ∧ e.stop = s.pathEnd ∧ e.repl = s.pathLit := by
  intro e he
  cases hu : unquoteGo s.pathLit with
  | none =>
    rw [specEdits_eq_of_unquote_none hu] at he
    cases he
  | some p =>
    rw [specEdits_eq_of_unquote_some hu] at he
    unfold specEditsPath at he
    rcases List.mem_append.mp he with h1 | h2
    · split at h1
      case isTrue hpx =>
        rw [if_neg (by simp), List.nil_append] at h1
        simp only [List.mem_singleton] at h1
        subst h1
        refine ⟨rfl, rfl, ?_⟩
        rw [hcan p hu, hpx]
      case isFalse _ => cases h1
    · split at h2
      case isTrue hpre =>
        simp only [List.mem_singleton] at h2
        subst h2
        refine ⟨rfl, rfl, ?_⟩
        rw [hcan p hu]
        obtain ⟨t, ht⟩ := hasPref_exists _ _ hpre
        subst ht
        dsimp only
        rw [List.append_assoc]
        congr 1
        exact replaceFirst_append X ('/' :: t) X
      case isFalse _ => cases h2

/-- C3 amended: rewriting with identical old and new identities returns the
file bytes unchanged for every well-formed parsed file all of whose import
path literals are in canonical double-quoted form
(`literal = strconv.Quote(path)`); a matching literal written otherwise
(e.g. as a raw back-quoted string) is re-quoted by the rewrite, so the
claim as stated fails on such files. -/
theorem fixGo_noop_same_identity (data X : List Char) (isRoot : Bool)
    (f : GoFile) (hwf : wf data f)
    (hcan : ∀ s ∈ f.imports, ∀ p, unquoteGo s.pathLit = some p →
      s.pathLit = quoteGo p) :
    fixGo data f X X isRoot = some data := by
  obtain ⟨hn1, hn2, hn3, hn4, h5, h6⟩ := hwf
  have hpe : ∃ pe, pkgEdits X X isRoot f = some pe ∧
      ∀ e ∈ pe, e.start = f.nameStart ∧ e.stop = f.nameEnd ∧
        e.repl = f.name := by
    rcases pkgEdits_same_identity X isRoot f hn4 with hpk | hpk
    · exact ⟨[], hpk, by intro e he; cases he⟩
    · refine ⟨_, hpk, ?_⟩
      intro e he
      simp only [List.mem_singleton] at he
      subst he
      exact ⟨rfl, rfl, rfl⟩
  obtain ⟨pe, hpk, hpec⟩ := hpe
  have hedits : fixGoEdits X X isRoot f =
      some (pe ++ f.imports.flatMap (specEdits X X)) := by
    unfold fixGoEdits
    rw [hpk]
  have hall := fixGoEdits_pairwise_bounds data X X isRoot f _
    ⟨hn1, hn2, hn3, hn4, h5, h6⟩ hedits
  have hcontent : ∀ e ∈ pe ++ f.imports.flatMap (specEdits X X),
      0 ≤ e.start ∧ e.start ≤ e.stop ∧ e.stop ≤ data.length ∧
      e.repl = slice data e.start e.stop := by
    intro e he
    rcases List.mem_append.mp he with h1 | h2
    · obtain ⟨ha, hb', hc⟩ := hpec e h1
      refine ⟨Nat.zero_le _, by omega, by omega, ?_⟩
      rw [ha, hb', hc]
      exact hn3.symm
    · obtain ⟨s2, hs2mem, hs2⟩ := List.mem_flatMap.mp h2
      obtain ⟨hw1, hw2, hw3, hw4⟩ := h5 s2 hs2mem
      obtain ⟨hb1, hb2, hb3⟩ :=
        specEdits_same_content X s2 (hcan s2 hs2mem) e hs2
      refine ⟨Nat.zero_le _, by omega, by omega, ?_⟩
      rw [hb1, hb2, hb3]
      exact hw4.symm
  rw [fixGo_eq_of_edits hedits]
  unfold bufferBytes
  rw [sortEdits_of_nonoverlapping _ hall.1 hall.2]
  rw [materialize_id data _ 0 hall.1
    (fun e he => hcontent e he), List.drop_zero]

/-- C3 counterexample: the well-formed file `exDataRaw` writes its
self-import of `a/b` as the raw literal. Rewriting it with old = new =
`a/b` replaces that literal with the double-quoted form, so the output
differs from the input, refuting `rewrite(file, X, X) == file` for every
parseable file. -/
theorem fixGo_noop_same_identity_cex :
    wf exDataRaw exFileRaw ∧
    fixGo exDataRaw exFileRaw ("a/b".toList) ("a/b".toList) true ≠
      some exDataRaw :=
  ⟨by decide, by decide⟩

/-- C3 witness for the amended claim: on the canonical file `exData`,
rewriting with old = new = `a/b` returns the bytes unchanged. -/
theorem fixGo_noop_same_identity_witness :
    wf exData exFile ∧
    fixGo exData exFile ("a/b".toList) ("a/b".toList) true = some exData := by
  refine ⟨by decide, ?_⟩
  refine fixGo_noop_same_identity exData ("a/b".toList) true exFile
    (by decide) ?_
  intro s hs p hp
  have hs' : s = ⟨false, 17, 22, "\"a/b\"".toList⟩ := by
    simpa [exFile] using hs
  subst hs'
  rw [show unquoteGo ("\"a/b\"".toList) = some ("a/b".toList) from by decide]
    at hp
  cases hp
  decide

/-- C6: a well-formed parsed file none of whose import paths equals the
old identity or starts with it as a slash-prefix, and whose package name
(when at the module root) is neither `base(O)` nor `base(O) ++ "_test"`,
is returned byte-for-byte unchanged. -/
theorem fixGo_untouched_identity (data srcMod dstMod : List Char)
    (isRoot : Bool) (f : GoFile) (_hwf : wf data f)
    (hpkg : isRoot = true → f.name ≠ pathBase srcMod ∧
      f.name ≠ pathBase srcMod ++ "_test".toList)
    (himp : ∀ s ∈ f.imports, ∀ p, unquoteGo s.pathLit = some p →
      p ≠ srcMod ∧ hasPref (srcMod ++ ['/']) p = false) :
    fixGo data f srcMod dstMod isRoot = some data := by
  have hpk : pkgEdits srcMod dstMod isRoot f = some [] := by
    unfold pkgEdits
    cases isRoot with
    | false => rfl
    | true =>
      obtain ⟨hm1, hm2⟩ := hpkg rfl
      have hn : ¬(f.name = pathBase srcMod ∨
          f.name = pathBase srcMod ++ "_test".toList) := by
        rintro (h | h)
        exacts [hm1 h, hm2 h]
      rw [if_pos rfl, if_neg hn]
  have hflat : f.imports.flatMap (specEdits srcMod dstMod) = [] := by
    rw [List.flatMap_eq_nil_iff]
    intro s hs
    cases hu : unquoteGo s.pathLit with
    | none => exact specEdits_eq_of_unquote_none hu
    | some p =>
      obtain ⟨hne, hpre⟩ := himp s hs p hu
      rw [specEdits_eq_of_unquote_some hu]
      unfold specEditsPath
      rw [if_neg hne, hpre]
      simp
  have hedits : fixGoEdits srcMod dstMod isRoot f = some [] := by
    unfold fixGoEdits
    rw [hpk]
    simp [hflat]
  rw [fixGo_eq_of_edits hedits]
  rfl

/-- C6 witness: the file `exDataOther` (package `m`, import `x/y`) is
untouched by a rewrite of `a/b` to `a/c` even as a root file. -/
theorem fixGo_untouched_identity_witness :
    wf exDataOther exFileOther ∧
    fixGo exDataOther exFileOther ("a/b".toList) ("a/c".toList) true =
      some exDataOther := by
  refine ⟨by decide, ?_⟩
  refine fixGo_untouched_identity exDataOther ("a/b".toList) ("a/c".toList)
    true exFileOther (by decide) (fun _ => ⟨by decide, by decide⟩) ?_
  intro s hs p hp
  have hs' : s = ⟨false, 17, 22, "\"x/y\"".toList⟩ := by
    simpa [exFileOther] using hs
  subst hs'
  rw [show unquoteGo ("\"x/y\"".toList) = some ("x/y".toList) from by decide]
    at hp
  cases hp
  exact ⟨by decide, by decide⟩

end Gonew
